import Mathlib

/-!
Verification of the zombie-squirrel caching layer against its design
specification.  The Python source is shallowly embedded: strings are lists
of characters, pandas DataFrames are a column list plus a row matrix of
cell values, the stores are association lists, and the external `json`
module is modelled by an executable printer/parser pair over a JSON value
type.  All definitions are computable so that every statement can be
checked on concrete inputs.
-/

/-- Characters of a Python string, kept as a plain list so that induction
and kernel evaluation are straightforward. -/
abbrev Str := List Char

/-- Turn a Lean string literal into the character-list representation. -/
def strOf (s : String) : Str := s.data

/-- Association-list lookup, first match wins (dict semantics). -/
def lookupA {α : Type} (l : List (Str × α)) (k : Str) : Option α :=
  match l with
  | [] => none
  | (k2, v) :: tl => if k2 = k then some v else lookupA tl k

/-- Association-list overwrite: replace the first binding of the key, or
append a new binding (dict assignment / S3 put_object semantics). -/
def updA {α : Type} (l : List (Str × α)) (k : Str) (v : α) : List (Str × α) :=
  match l with
  | [] => [(k, v)]
  | (k2, w) :: tl => if k2 = k then (k2, v) :: tl else (k2, w) :: updA tl k v

/-- Order-preserving duplicate removal keeping the first occurrence, the
behaviour of pandas Series.unique. -/
def pdUnique (seen : List Str) : List Str → List Str
  | [] => []
  | x :: xs => if x ∈ seen then pdUnique seen xs else x :: pdUnique (x :: seen) xs

/-- Fueled worker for chunkList; the fuel only certifies termination and
the list length is always enough. -/
def chunkListF {α : Type} (n : Nat) : Nat → List α → List (List α)
  | 0, _ => []
  | _, [] => []
  | f + 1, x :: xs => (x :: xs.take n) :: chunkListF n f (xs.drop n)

/-- Split a list into consecutive chunks of size `n + 1`, the shape of the
batching loop `range(0, len(ids), BATCH_SIZE)`. -/
def chunkList {α : Type} (n : Nat) (l : List α) : List (List α) :=
  chunkListF n l.length l

mutual

/-- Model of a Python/JSON value as it appears in DocDB records and
DataFrame cells: null, booleans, integers, strings, lists and dicts. -/
inductive PyVal : Type
  | null : PyVal
  | bool (b : Bool) : PyVal
  | num (n : Int) : PyVal
  | str (s : Str) : PyVal
  | arr (es : PyList) : PyVal
  | obj (fs : PyFields) : PyVal
deriving DecidableEq

/-- Elements of a JSON array. -/
inductive PyList : Type
  | nil : PyList
  | cons (v : PyVal) (tl : PyList) : PyList
deriving DecidableEq

/-- Ordered fields of a JSON object. -/
inductive PyFields : Type
  | nil : PyFields
  | cons (k : Str) (v : PyVal) (tl : PyFields) : PyFields
deriving DecidableEq

end

/-- Decimal digit to its character. -/
def digChar : Nat → Char
  | 0 => '0' | 1 => '1' | 2 => '2' | 3 => '3' | 4 => '4'
  | 5 => '5' | 6 => '6' | 7 => '7' | 8 => '8' | _ => '9'

/-- Character back to its decimal digit value. -/
def digVal (c : Char) : Nat := c.toNat - 48

/-- Is the character a decimal digit. -/
def isDig (c : Char) : Bool := 48 ≤ c.toNat && c.toNat ≤ 57

/-- Print a natural number in decimal, as Python str/json.dumps does. -/
def natChars (n : Nat) : Str :=
  if n = 0 then ['0'] else ((Nat.digits 10 n).reverse).map digChar

/-- Print an integer in decimal with a leading minus sign when negative. -/
def intChars (i : Int) : Str :=
  if i < 0 then '-' :: natChars (-i).toNat else natChars i.toNat

/-- Escape one character of a JSON string body the way json.dumps does for
the quote, backslash and the common control characters; all other
characters are emitted verbatim (the ensure_ascii=False presentation,
which does not affect any property at issue). -/
def escChar (c : Char) : Str :=
  if c = '"' then ['\\', '"']
  else if c = '\\' then ['\\', '\\']
  else if c = '\n' then ['\\', 'n']
  else if c = '\t' then ['\\', 't']
  else if c = '\r' then ['\\', 'r']
  else [c]

/-- Escape a whole JSON string body. -/
def escStr (s : Str) : Str := s.flatMap escChar

mutual

/-- Model of json.dumps with its default separators: objects print as
key-value pairs joined by comma-space with colon-space, arrays join
elements by comma-space. -/
def printVal : PyVal → Str
  | .null => 'n' :: strOf "ull"
  | .bool true => 't' :: strOf "rue"
  | .bool false => 'f' :: strOf "alse"
  | .num i => intChars i
  | .str s => '"' :: escStr s ++ ['"']
  | .arr es => '[' :: printElems es ++ [']']
  | .obj fs => '\x7b' :: printFields fs ++ ['\x7d']

/-- Comma-space separated element list, without the brackets. -/
def printElems : PyList → Str
  | .nil => []
  | .cons v .nil => printVal v
  | .cons v tl => printVal v ++ ',' :: ' ' :: printElems tl

/-- Comma-space separated field list, without the braces. -/
def printFields : PyFields → Str
  | .nil => []
  | .cons k v .nil => '"' :: escStr k ++ '"' :: ':' :: ' ' :: printVal v
  | .cons k v tl =>
      '"' :: escStr k ++ '"' :: ':' :: ' ' :: printVal v ++ ',' :: ' ' :: printFields tl

end

mutual

/-- Parser fuel needed for a value: every constructor and element costs
one unit. -/
def sizeV : PyVal → Nat
  | .arr es => 1 + sizeL es
  | .obj fs => 1 + sizeF fs
  | _ => 1

/-- Fuel needed for an element list. -/
def sizeL : PyList → Nat
  | .nil => 1
  | .cons v tl => 1 + sizeV v + sizeL tl

/-- Fuel needed for a field list. -/
def sizeF : PyFields → Nat
  | .nil => 1
  | .cons _ v tl => 1 + sizeV v + sizeF tl

end

/-- Unescape one escaped character of a JSON string, the inverse table of
escChar plus the two extra escapes json.loads accepts. -/
def unescChar (c : Char) : Option Char :=
  if c = '"' then some '"'
  else if c = '\\' then some '\\'
  else if c = '/' then some '/'
  else if c = 'n' then some '\n'
  else if c = 't' then some '\t'
  else if c = 'r' then some '\r'
  else if c = 'b' then some '\x08'
  else if c = 'f' then some '\x0c'
  else none

/-- Parse a JSON string body up to and including the closing quote,
returning the decoded characters and the rest of the input. -/
def parseStrBody : Str → Option (Str × Str)
  | [] => none
  | c :: r =>
    if c = '"' then some ([], r)
    else if c = '\\' then
      match r with
      | [] => none
      | c2 :: r2 =>
        (unescChar c2).bind fun u =>
          (parseStrBody r2).map fun p => (u :: p.1, p.2)
    else
      (parseStrBody r).map fun p => (c :: p.1, p.2)
termination_by s => s.length
decreasing_by
  all_goals simp
  omega

/-- Fold decimal digit characters into a natural number. -/
def charsNat (ds : Str) : Nat := ds.foldl (fun a c => 10 * a + digVal c) 0

/-- Parse a nonempty run of decimal digits. -/
def parseNatNum (s : Str) : Option (Nat × Str) :=
  let ds := s.takeWhile isDig
  if ds.isEmpty then none else some (charsNat ds, s.dropWhile isDig)

/-- Parse a JSON integer, optionally negative. -/
def parseNum (s : Str) : Option (Int × Str) :=
  match s with
  | [] => none
  | c :: r =>
    if c = '-' then (parseNatNum r).map fun p => (-(p.1 : Int), p.2)
    else (parseNatNum (c :: r)).map fun p => ((p.1 : Int), p.2)

/-- Drop an expected literal run of characters. -/
def dropLit (lit : Str) (s : Str) : Option Str :=
  match lit, s with
  | [], r => some r
  | c :: lt, d :: r => if c = d then dropLit lt r else none
  | _ :: _, [] => none

mutual

/-- Fueled model of json.loads on the text json.dumps emits: keywords,
strings, integers, arrays and objects with the canonical comma-space and
colon-space separators. -/
def parseVal : Nat → Str → Option (PyVal × Str)
  | 0, _ => none
  | _ + 1, [] => none
  | f + 1, c :: r =>
    if c = 'n' then (dropLit ['u', 'l', 'l'] r).map fun r2 => (.null, r2)
    else if c = 't' then (dropLit ['r', 'u', 'e'] r).map fun r2 => (.bool true, r2)
    else if c = 'f' then (dropLit ['a', 'l', 's', 'e'] r).map fun r2 => (.bool false, r2)
    else if c = '"' then (parseStrBody r).map fun p => (.str p.1, p.2)
    else if c = '[' then
      match r with
      | [] => (parseElems f []).map fun p => (.arr p.1, p.2)
      | d :: r2 =>
        if d = ']' then some (.arr .nil, r2)
        else (parseElems f (d :: r2)).map fun p => (.arr p.1, p.2)
    else if c = '\x7b' then
      match r with
      | [] => (parseFields f []).map fun p => (.obj p.1, p.2)
      | d :: r2 =>
        if d = '\x7d' then some (.obj .nil, r2)
        else (parseFields f (d :: r2)).map fun p => (.obj p.1, p.2)
    else (parseNum (c :: r)).map fun p => (.num p.1, p.2)

/-- Parse a nonempty comma-space separated element list up to and
including the closing bracket. -/
def parseElems : Nat → Str → Option (PyList × Str)
  | 0, _ => none
  | f + 1, s =>
    (parseVal f s).bind fun vp =>
      match vp.2 with
      | [] => none
      | d :: r2 =>
        if d = ']' then some (.cons vp.1 .nil, r2)
        else if d = ',' then
          match r2 with
          | [] => none
          | e :: r3 =>
            if e = ' ' then (parseElems f r3).map fun p => (.cons vp.1 p.1, p.2)
            else none
        else none

/-- Parse a nonempty comma-space separated field list up to and including
the closing brace. -/
def parseFields : Nat → Str → Option (PyFields × Str)
  | 0, _ => none
  | f + 1, s =>
    match s with
    | [] => none
    | c :: r =>
      if c = '"' then
        (parseStrBody r).bind fun kp =>
          match kp.2 with
          | ':' :: ' ' :: r2 =>
            (parseVal f r2).bind fun vp =>
              match vp.2 with
              | [] => none
              | d :: r3 =>
                if d = '\x7d' then some (.cons kp.1 vp.1 .nil, r3)
                else if d = ',' then
                  match r3 with
                  | [] => none
                  | e :: r4 =>
                    if e = ' ' then
                      (parseFields f r4).map fun p => (.cons kp.1 vp.1 p.1, p.2)
                    else none
                else none
          | _ => none
      else none

end

/-- Model of json.loads on a complete input: the whole text must be
consumed, and the fuel is enough for any printed value. -/
def parseTop (s : Str) : Option PyVal :=
  match parseVal (2 * s.length + 1) s with
  | some (v, []) => some v
  | _ => none

/-- Tag prefix used by encode_dict_value / decode_dict_value in
acorn_helpers/qc.py. -/
def jsonTag : Str := strOf "json:"

/-- Model of Python str() on the scalars that encode_dict_value coerces;
container cases never reach str() because the dict/list branch fires
first. -/
def pyStr : PyVal → Str
  | .bool true => strOf "True"
  | .bool false => strOf "False"
  | .num i => intChars i
  | .str s => s
  | .null => strOf "None"
  | .arr es => printVal (.arr es)
  | .obj fs => printVal (.obj fs)

/-- Embedding of encode_dict_value: dicts and lists become a tagged JSON
string, None passes through, strings pass through, remaining scalars are
coerced to text. -/
def encodeDictValue (v : PyVal) : PyVal :=
  match v with
  | .obj fs => .str (jsonTag ++ printVal (.obj fs))
  | .arr es => .str (jsonTag ++ printVal (.arr es))
  | .null => .null
  | .str s => .str s
  | .bool b => .str (pyStr (.bool b))
  | .num i => .str (pyStr (.num i))

/-- Embedding of decode_dict_value: strings with the tag prefix are parsed
from the text after the tag (none models the json.loads exception), all
other values are returned unchanged. -/
def decodeDictValue (v : PyVal) : Option PyVal :=
  match v with
  | .str s =>
    if jsonTag.isPrefixOf s then
      match parseTop (s.drop 5) with
      | some w => some w
      | none => none
    else some (.str s)
  | w => some w

/-- Model of a pandas DataFrame: ordered column names and a row-major
matrix of cells, one cell per column per row. -/
structure DF where
  cols : List Str
  rows : List (List PyVal)
deriving DecidableEq

/-- The frame pd.DataFrame() with no columns and no rows. -/
def emptyDF : DF := ⟨[], []⟩

/-- pandas DataFrame.empty: true when either axis has length zero. -/
def dfEmpty (d : DF) : Bool := d.rows.isEmpty || d.cols.isEmpty

/-- Position of a column name in a column list. -/
def colIdx (cols : List Str) (c : Str) : Option Nat :=
  match cols with
  | [] => none
  | k :: tl => if k = c then some 0 else (colIdx tl c).map (· + 1)

/-- Read one cell of a row by column name; absent columns read as null
(pandas NaN). -/
def getCell (cols : List Str) (row : List PyVal) (c : Str) : PyVal :=
  match colIdx cols c with
  | some i => row.getD i .null
  | none => .null

/-- Column list after the assignment df[c] = v: unchanged when the column
exists, else extended by it. -/
def setColCols (cols : List Str) (c : Str) : List Str :=
  match colIdx cols c with
  | some _ => cols
  | none => cols ++ [c]

/-- One row after the assignment df[c] = v with a scalar. -/
def setColRow (cols : List Str) (c : Str) (v : PyVal) (r : List PyVal) : List PyVal :=
  match colIdx cols c with
  | some i => r.set i v
  | none => r ++ [v]

/-- Column assignment df[c] = v with a scalar: overwrite the column when
present, else append it, filling every row with the value. -/
def setCol (d : DF) (c : Str) (v : PyVal) : DF :=
  ⟨setColCols d.cols c, d.rows.map (setColRow d.cols c v)⟩

/-- Well-formed frame: every row has one cell per column. -/
def dfWF (d : DF) : Prop := ∀ r ∈ d.rows, r.length = d.cols.length

/-- Re-index one row from its own column list onto a target column list;
columns the row does not have become null (pandas outer-join fill). -/
def alignRow (allCols : List Str) (cols : List Str) (row : List PyVal) : List PyVal :=
  allCols.map (fun c =>
    match colIdx cols c with
    | some i => row.getD i .null
    | none => .null)

/-- pandas concat with ignore_index: the column union in first-appearance
order, every frame's rows re-indexed onto it, in frame order. -/
def concatDFs (dfs : List DF) : DF :=
  let ac := pdUnique [] (dfs.flatMap (fun d => d.cols))
  ⟨ac, dfs.flatMap (fun d => d.rows.map (alignRow ac d.cols))⟩

/-- The _store dict of MemoryTree. -/
abbrev MemStore := List (Str × DF)

/-- MemoryTree._scurry_single: dict .get with an empty-frame default and
no possibility of an error. -/
def memScurrySingle (store : MemStore) (t : Str) : DF :=
  (lookupA store t).getD emptyDF

/-- The reserved tagging column of multi-key reads. -/
def assetNameCol : Str := strOf "asset_name"

/-- MemoryTree.hide: plain dict assignment. -/
def memHide (store : MemStore) (t : Str) (d : DF) : MemStore := updA store t d

/-- MemoryTree._scurry_multiple: per requested key take the stored frame
(empty default), skip empty frames, copy and tag the copy with the key in
asset_name, then concat everything in request order; an empty frame when
no key had data. -/
def memScurryMultiple (store : MemStore) (names : List Str) : DF :=
  let dfs := names.filterMap (fun n =>
    let d := (lookupA store n).getD emptyDF
    if dfEmpty d then none else some (setCol d assetNameCol (.str n)))
  if dfs.isEmpty then emptyDF else concatDFs dfs

/-- The zs_ prefix and .pqt extension of utils.prefix_table_name. -/
def prefix_table_name (t : Str) : Str := strOf "zs_" ++ t ++ strOf ".pqt"

/-- The application-caches/ S3 key prefix of utils.get_s3_cache_path. -/
def get_s3_cache_path (f : Str) : Str := strOf "application-caches/" ++ f

/-- Fueled worker for replaceAll; the fuel only certifies termination and
the input length is always enough for a nonempty pattern. -/
def replaceAllF (pat rep : Str) : Nat → Str → Str
  | 0, s => s
  | _, [] => []
  | f + 1, c :: r =>
    if pat.isPrefixOf (c :: r) then
      rep ++ replaceAllF pat rep f ((c :: r).drop pat.length)
    else c :: replaceAllF pat rep f r

/-- Python str.replace: replace every occurrence of a nonempty pattern. -/
def replaceAll (pat rep : Str) (s : Str) : Str :=
  replaceAllF pat rep s.length s

/-- S3Tree._write_metadata_json target object name: every qc/* key
collapses to the shared zs_qc.json, any other key maps to its parquet
name with the extension replaced. -/
def metaJsonName (t : Str) : Str :=
  if (strOf "qc/").isPrefixOf t then strOf "zs_qc.json"
  else replaceAll (strOf ".pqt") (strOf ".json") (prefix_table_name t)

/-- Contents of the S3 cache bucket: parquet objects and metadata JSON
objects, keyed by S3 object key. -/
structure S3State where
  parquets : List (Str × DF)
  jsons : List (Str × List Str)
deriving DecidableEq

/-- The bucket before any write. -/
def s3Init : S3State := ⟨[], []⟩

/-- S3Tree.hide: upload the parquet, then, unless suppressed, overwrite
the sidecar metadata JSON with exactly the written frame's columns. -/
def s3Hide (st : S3State) (t : Str) (d : DF) (write_metadata : Bool) : S3State :=
  let st1 : S3State := ⟨updA st.parquets (get_s3_cache_path (prefix_table_name t)) d, st.jsons⟩
  if write_metadata then
    ⟨st1.parquets, updA st1.jsons (get_s3_cache_path (metaJsonName t)) d.cols⟩
  else st1

/-- Run a sequence of (table, frame, write_metadata) hide calls from the
empty bucket. -/
def runHides (ops : List (Str × DF × Bool)) : S3State :=
  ops.foldl (fun st op => s3Hide st op.1 op.2.1 op.2.2) s3Init

/-- S3Tree._scurry_single: a failing read (missing or unreadable object)
is caught and degrades to an empty frame. -/
def s3ScurrySingle (st : S3State) (t : Str) : DF :=
  match lookupA st.parquets (get_s3_cache_path (prefix_table_name t)) with
  | some d => d
  | none => emptyDF

/-- Resolve every requested table to its stored parquet frame; none when
any is missing (the failing read_parquet aborts the whole union query). -/
def lookupAll (st : S3State) : List Str → Option (List DF)
  | [] => some []
  | n :: tl =>
    match lookupA st.parquets (get_s3_cache_path (prefix_table_name n)), lookupAll st tl with
    | some d, some ds => some (d :: ds)
    | _, _ => none

/-- S3Tree._scurry_multiple: one UNION ALL query over all requested
paths; any missing path or column-arity mismatch fails the whole query,
which is caught and returns an empty frame; on success every branch
appends its originating table name as a trailing asset_name column and
the branches concatenate in request order under the first branch's
column names. -/
def s3ScurryMultiple (st : S3State) (names : List Str) : DF :=
  match lookupAll st names with
  | none => emptyDF
  | some [] => emptyDF
  | some (d0 :: drest) =>
    if (d0 :: drest).all (fun d => d.cols.length = d0.cols.length) then
      ⟨d0.cols ++ [assetNameCol],
       ((d0 :: drest).zip names).flatMap (fun p => p.1.rows.map (fun r => r ++ [.str p.2]))⟩
    else emptyDF

/-- References to live DataFrame objects, for making Python aliasing
explicit. -/
abbrev Ref := Nat

/-- MemoryTree with object identity: the store maps table names to
references and the heap maps references to frame values; a pandas copy
allocates a fresh reference. -/
structure MemHeapState where
  store : List (Str × Ref)
  heap : List (Nat × DF)
  next : Ref

/-- Heap lookup by reference. -/
def lookupR (heap : List (Nat × DF)) (r : Nat) : Option DF :=
  match heap with
  | [] => none
  | (k, d) :: tl => if k = r then some d else lookupR tl r

/-- Heap overwrite by reference. -/
def updR (heap : List (Nat × DF)) (r : Nat) (d : DF) : List (Nat × DF) :=
  match heap with
  | [] => [(r, d)]
  | (k, w) :: tl => if k = r then (k, d) :: tl else (k, w) :: updR tl r d

/-- MemoryTree._scurry_multiple on the heap model: each non-empty stored
frame is copied to a fresh reference and the asset_name column is then
assigned on the copy; the stored frames themselves are only read. -/
def memScurryMultipleH (st : MemHeapState) (names : List Str) : List Ref × MemHeapState :=
  match names with
  | [] => ([], st)
  | n :: rest =>
    let d := match lookupA st.store n with
      | some r => (lookupR st.heap r).getD emptyDF
      | none => emptyDF
    if dfEmpty d then memScurryMultipleH st rest
    else
      let heap2 := st.heap ++ [(st.next, d)]
      let heap3 := updR heap2 st.next (setCol d assetNameCol (.str n))
      let st3 : MemHeapState := ⟨st.store, heap3, st.next + 1⟩
      (st.next :: (memScurryMultipleH st3 rest).1, (memScurryMultipleH st3 rest).2)

/-- One remote DocDB asset document, reduced to identifier, watermark and
an opaque flattened payload: the record-shape-specific flattening of the
remaining fields is outside the covered scope (spec section 1). -/
structure AssetDoc where
  docId : Str
  lastModified : PyVal
  payload : PyVal
deriving DecidableEq

/-- Column layout of the asset-basics frame in the embedding: identifier
and watermark columns as in the source, the remaining flattened fields
collapsed into one payload column. -/
def abCols : List Str := [strOf "_id", strOf "_last_modified", strOf "payload"]

/-- Flatten one fetched document into an asset-basics row. -/
def flatRecord (d : AssetDoc) : List PyVal := [.str d.docId, d.lastModified, d.payload]

/-- The probe df[df._id == rid]. -/
def rowsWithId (d : DF) (rid : Str) : List (List PyVal) :=
  d.rows.filter (fun r => getCell d.cols r (strOf "_id") == .str rid)

/-- The keep_ids loop of asset_basics: a remote index entry is kept when
its probe into df comes back empty or the cached watermark differs.  The
df argument is the df variable as the code left it at this point. -/
def assetKeepIds (df : DF) (index : List (Str × PyVal)) : List Str :=
  (index.filter (fun p =>
    match rowsWithId df p.1 with
    | [] => true
    | r :: _ => getCell df.cols r (strOf "_last_modified") != p.2)).map (fun p => p.1)

/-- Identifier cell of a row as a plain string (identifiers are strings
in the source data). -/
def getIdStr (cols : List Str) (r : List PyVal) : Str :=
  match getCell cols r (strOf "_id") with
  | .str s => s
  | _ => []

/-- The cache-miss error message shared by the acorn_helpers entity
caches. -/
def cacheEmptyMsg : Str := strOf "Cache is empty. Use force_update=True to fetch data from database."

/-- Embedding of acorn_helpers/asset_basics.asset_basics: read the cache,
raise on an empty cache without force_update, otherwise rebuild.  The
update branch reassigns df to a fresh empty frame with the target columns
before the watermark comparison, exactly as the source does, so the
comparison runs against that empty frame.  The remote database is a list
of documents; the narrow index query projects identifier and watermark,
the batched full fetch filters documents by identifier in batches of 100.
Returns the resulting frame and the identifiers whose full fields were
requested. -/
def assetBasicsRun (cached : DF) (force : Bool) (rdb : List AssetDoc) :
    Except Str (DF × List Str) :=
  if dfEmpty cached && !force then .error cacheEmptyMsg
  else if dfEmpty cached || force then
    let df := DF.mk abCols []
    let index := rdb.map (fun d => (d.docId, d.lastModified))
    let keepIds := assetKeepIds df index
    let fetched := (chunkList 99 keepIds).flatMap
      (fun b => rdb.filter (fun d => b.contains d.docId))
    let newDf := DF.mk abCols (fetched.map flatRecord)
    let final := concatDFs
      [DF.mk df.cols (df.rows.filter (fun r => !(keepIds.contains (getIdStr df.cols r)))), newDf]
    .ok (final, keepIds)
  else .ok (cached, [])

/-- What the specified incremental algorithm would fetch: exactly the
identifiers absent from the cached frame or carrying a different
watermark there.  Stated from the spec for comparison with the code. -/
def specStaleIds (cached : DF) (index : List (Str × PyVal)) : List Str :=
  assetKeepIds cached index

/-- Embedding of acorn_helpers/unique_subject_ids: an empty cache without
force_update raises the cache-miss error; otherwise the frame is
refreshed from the remote aggregation when empty or forced, else served
from cache. -/
def usiHelperRun (cached : DF) (force : Bool) (remote : DF) : Except Str DF :=
  if dfEmpty cached && !force then .error cacheEmptyMsg
  else if dfEmpty cached || force then .ok remote
  else .ok cached

/-- Embedding of acorn_contents/unique_subject_ids: there is no
cache-miss error; an empty cache silently falls back to the remote
fetch. -/
def usiContentsRun (cached : DF) (force : Bool) (remote : DF) : Except Str DF :=
  if dfEmpty cached || force then .ok remote
  else .ok cached

/-- Embedding of _filter_by_asset_names: requested names not present are
only logged, and the result keeps exactly the rows tagged with one of the
requested names. -/
def filterByAssetNames (df : DF) (ns : List Str) : DF :=
  if dfEmpty df then df
  else DF.mk df.cols (df.rows.filter (fun r =>
    ns.any (fun n => getCell df.cols r assetNameCol == .str n)))

/-- Embedding of acorn_helpers/qc.qc: an empty cache without force_update
only logs an error and the function continues with the empty frame;
force_update replaces the frame with the fetched one; a requested
asset-name filter is applied last.  The function never raises on a cache
miss. -/
def qcRun (cached : DF) (force : Bool) (fetched : DF) (asset_names : Option (List Str)) :
    Except Str DF :=
  let df := if force then fetched else cached
  match asset_names with
  | none => .ok df
  | some ns => .ok (filterByAssetNames df ns)

/-- The two acorn backends of squirrels.py. -/
inductive AcornBackend
  | redshift
  | memory
deriving DecidableEq

/-- ASCII lowercase of one character. -/
def toLowerCh (c : Char) : Char :=
  if 65 ≤ c.toNat && c.toNat ≤ 90 then Char.ofNat (c.toNat + 32) else c

/-- ASCII lowercase of a string. -/
def lowerStr (s : Str) : Str := s.map toLowerCh

/-- Embedding of squirrels.py line 13: the TREE_SPECIES environment value,
defaulting to memory, lowercased. -/
def tree_type (env : Option Str) : Str := lowerStr (env.getD (strOf "memory"))

/-- Embedding of squirrels.py lines 15-20: exactly the value redshift
selects the Redshift acorn and every other value selects the in-memory
acorn; no branch raises. -/
def chooseAcorn (env : Option Str) : AcornBackend :=
  if tree_type env = strOf "redshift" then .redshift else .memory

/-- Model of the external Redshift client read_table used by
RedshiftAcorn.scurry: a full scan of a table that was never created
raises, and scurry does not catch it (rds_get_handle_empty exists at the
call sites precisely to catch such errors). -/
def redshiftScurry (warehouse : List (Str × DF)) (t : Str) : Except Str DF :=
  match lookupA warehouse (prefix_table_name t) with
  | some d => .ok d
  | none => .error (strOf "relation does not exist")

/-- Embedding of rds_get_handle_empty: any scurry error degrades to an
empty frame. -/
def rdsGetHandleEmpty (warehouse : List (Str × DF)) (t : Str) : DF :=
  match redshiftScurry warehouse t with
  | .ok d => d
  | .error _ => emptyDF

/-- One observed qc refresh invocation of the hide_acorns fan-out. -/
structure QCCall where
  subject : Str
  force : Bool
  write_metadata : Bool
deriving DecidableEq

/-- The group identifiers driving the fan-out:
df_basics subject_id column, dropna then unique. -/
def subjectIdsOf (col : List (Option Str)) : List Str := pdUnique [] (col.filterMap id)

/-- Embedding of the hide_acorns fan-out stage as its trace of qc calls:
no subjects means no calls; the first subject runs synchronously with
metadata enabled; the remaining subjects are all submitted to the pool
with metadata suppressed; when any pooled call raises, the except branch
reruns every subject after the first sequentially, metadata suppressed. -/
def hideAcornsQC (subjects : List Str) (fails : Str → Bool) : List QCCall :=
  match subjects with
  | [] => []
  | s0 :: rest =>
    let first : List QCCall := [⟨s0, true, true⟩]
    if rest.isEmpty then first
    else
      let pooled := rest.map (fun s => (⟨s, true, false⟩ : QCCall))
      if rest.any fails then
        first ++ pooled ++ rest.map (fun s => (⟨s, true, false⟩ : QCCall))
      else first ++ pooled


/-- The per-key step of the in-memory multi-key read: nothing for an
empty or missing frame, else the frame tagged with its key. -/
def memTagged (store : MemStore) (n : Str) : Option DF :=
  let d := (lookupA store n).getD emptyDF
  if dfEmpty d then none else some (setCol d assetNameCol (.str n))

/-- The rows the multi-key merge owes to one requested key: nothing when
the key has no data, else its tagged rows re-indexed onto the merged
column list. -/
def taggedRowsFor (store : MemStore) (names : List Str) (n : Str) : List (List PyVal) :=
  let d := (lookupA store n).getD emptyDF
  if dfEmpty d then []
  else ((setCol d assetNameCol (.str n)).rows).map
    (alignRow (memScurryMultiple store names).cols (setColCols d.cols assetNameCol))

/-- Well-formed heap: every live reference is below the allocation
counter. -/
def heapWF (st : MemHeapState) : Prop := ∀ p ∈ st.heap, p.1 < st.next

/-- Last element of a list, if any. -/
def lastOf {α : Type} : List α → Option α
  | [] => none
  | [a] => some a
  | _ :: b :: tl => lastOf (b :: tl)

/-- The column lists of the metadata-enabled hide calls whose sidecar
artifact is the given S3 key, in execution order. -/
def metaWritesTo (ops : List (Str × DF × Bool)) (p : Str) : List (List Str) :=
  (ops.filter (fun o => o.2.2 && (get_s3_cache_path (metaJsonName o.1) == p))).map
    (fun o => o.2.1.cols)

theorem digVal_digChar (d : Nat) (h : d < 10) : digVal (digChar d) = d := by
  interval_cases d <;> rfl

theorem isDig_digChar (d : Nat) : isDig (digChar d) = true := by
  match d with
  | 0 | 1 | 2 | 3 | 4 | 5 | 6 | 7 | 8 => rfl
  | n + 9 => rfl

theorem foldlDigits (L : List Nat) (a : Nat) :
    L.foldl (fun x d => 10 * x + d) a = Nat.ofDigits 10 L.reverse + a * 10 ^ L.length := by
  induction L generalizing a with
  | nil => simp [Nat.ofDigits]
  | cons d tl ih =>
    rw [List.foldl_cons, ih]
    simp [Nat.ofDigits_append, Nat.ofDigits]
    ring

theorem charsNat_natChars (n : Nat) : charsNat (natChars n) = n := by
  by_cases h : n = 0
  · subst h
    rfl
  · have hd : ∀ d ∈ (Nat.digits 10 n).reverse, d < 10 := by
      intro d hdm
      exact Nat.digits_lt_base (by omega) (List.mem_reverse.mp hdm)
    unfold natChars charsNat
    rw [if_neg h, List.foldl_map]
    have he : ((Nat.digits 10 n).reverse).foldl (fun a c => 10 * a + digVal (digChar c)) 0
        = ((Nat.digits 10 n).reverse).foldl (fun a d => 10 * a + d) 0 :=
      List.foldl_ext _ _ 0 fun a d hdm => by rw [digVal_digChar d (hd d hdm)]
    rw [he, foldlDigits, List.reverse_reverse, Nat.ofDigits_digits]
    simp

theorem natChars_all_dig (n : Nat) : ∀ c ∈ natChars n, isDig c = true := by
  intro c hc
  unfold natChars at hc
  by_cases h : n = 0
  · simp [h] at hc
    subst hc
    rfl
  · rw [if_neg h] at hc
    obtain ⟨d, _, hdc⟩ := List.mem_map.mp hc
    rw [← hdc]
    exact isDig_digChar d

theorem natChars_ne_nil (n : Nat) : natChars n ≠ [] := by
  unfold natChars
  by_cases h : n = 0
  · simp [h]
  · rw [if_neg h]
    simp [h, Nat.digits_ne_nil_iff_ne_zero]

theorem isDig_toNat {c : Char} (h : isDig c = true) : 48 ≤ c.toNat ∧ c.toNat ≤ 57 := by
  simpa [isDig] using h

/-- The character after a printed token, when the context guarantees it is
not a digit: enough to delimit a printed integer. -/
def goodF (rest : Str) : Prop := ∀ c, rest.head? = some c → isDig c = false

theorem goodF_nil : goodF [] := by
  intro c hc
  simp at hc

theorem goodF_cons {c : Char} {r : Str} (h : isDig c = false) : goodF (c :: r) := by
  intro d hd
  simp at hd
  rwa [← hd]

theorem takeWhile_app (p : Char → Bool) (xs ys : Str) (h1 : ∀ x ∈ xs, p x = true)
    (h2 : ∀ c, ys.head? = some c → p c = false) :
    (xs ++ ys).takeWhile p = xs ∧ (xs ++ ys).dropWhile p = ys := by
  induction xs with
  | nil =>
    simp only [List.nil_append]
    cases ys with
    | nil => simp
    | cons c t =>
      have := h2 c (by rfl)
      simp [List.takeWhile, List.dropWhile, this]
  | cons x xt ih =>
    have hx : p x = true := h1 x (List.mem_cons_self x xt)
    have := ih (fun y hy => h1 y (List.mem_cons_of_mem x hy))
    simp [List.takeWhile, List.dropWhile, hx, this.1, this.2]

theorem parseNatNum_rt (n : Nat) (rest : Str) (hg : goodF rest) :
    parseNatNum (natChars n ++ rest) = some (n, rest) := by
  have h := takeWhile_app isDig (natChars n) rest (natChars_all_dig n) hg
  unfold parseNatNum
  simp only [h.1, h.2]
  rw [if_neg (by simp [natChars_ne_nil n]), charsNat_natChars]

theorem parseNum_rt (i : Int) (rest : Str) (hg : goodF rest) :
    parseNum (intChars i ++ rest) = some (i, rest) := by
  unfold intChars
  by_cases h : i < 0
  · rw [if_pos h]
    simp only [List.cons_append]
    simp only [parseNum]
    rw [if_pos trivial, parseNatNum_rt _ _ hg]
    simp
    omega
  · rw [if_neg h]
    obtain ⟨d, ds, hds⟩ := List.exists_cons_of_ne_nil (natChars_ne_nil i.toNat)
    have hdig : isDig d = true := by
      apply natChars_all_dig i.toNat
      rw [hds]
      exact List.mem_cons_self d ds
    have hdm : d ≠ '-' := by
      intro he
      subst he
      exact absurd hdig (by decide)
    rw [hds]
    simp only [List.cons_append]
    simp only [parseNum]
    rw [if_neg hdm, ← List.cons_append, ← hds, parseNatNum_rt _ _ hg]
    simp
    omega

theorem parseStrBody_cons (c : Char) (r : Str) :
    parseStrBody (c :: r) =
      (if c = '"' then some ([], r)
      else if c = '\\' then
        match r with
        | [] => none
        | c2 :: r2 =>
          (unescChar c2).bind fun u =>
            (parseStrBody r2).map fun p => (u :: p.1, p.2)
      else (parseStrBody r).map fun p => (c :: p.1, p.2)) := by
  rw [parseStrBody.eq_def]
  rfl

theorem parseStrBody_rt (s : Str) (rest : Str) :
    parseStrBody (escStr s ++ '"' :: rest) = some (s, rest) := by
  induction s with
  | nil => simp [escStr, parseStrBody_cons]
  | cons c t ih =>
    have hesc : escStr (c :: t) = escChar c ++ escStr t := by simp [escStr]
    rw [hesc, List.append_assoc]
    by_cases h1 : c = '"'
    · subst h1
      simp [escChar, parseStrBody_cons, unescChar, ih]
    · by_cases h2 : c = '\\'
      · subst h2
        simp [escChar, parseStrBody_cons, unescChar, ih]
      · by_cases h3 : c = '\n'
        · subst h3
          simp [escChar, parseStrBody_cons, unescChar, ih]
        · by_cases h4 : c = '\t'
          · subst h4
            simp [escChar, parseStrBody_cons, unescChar, ih]
          · by_cases h5 : c = '\r'
            · subst h5
              simp [escChar, parseStrBody_cons, unescChar, ih]
            · rw [escChar, if_neg h1, if_neg h2, if_neg h3, if_neg h4, if_neg h5]
              simp only [List.cons_append, List.nil_append]
              rw [parseStrBody_cons, if_neg h1, if_neg h2, ih]
              rfl

theorem sizeV_pos (v : PyVal) : 1 ≤ sizeV v := by
  cases v <;> simp [sizeV]

theorem isDig_ne_key {c : Char} (h : isDig c = true) :
    c ≠ 'n' ∧ c ≠ 't' ∧ c ≠ 'f' ∧ c ≠ '"' ∧ c ≠ '[' ∧ c ≠ '\x7b' ∧ c ≠ ']' ∧ c ≠ '\x7d' := by
  refine ⟨?_, ?_, ?_, ?_, ?_, ?_, ?_, ?_⟩ <;>
    (intro he; subst he; exact absurd h (by decide))

theorem intChars_head (i : Int) :
    ∃ c cs, intChars i = c :: cs ∧ (c = '-' ∨ isDig c = true) := by
  unfold intChars
  by_cases h : i < 0
  · rw [if_pos h]
    exact ⟨'-', _, rfl, Or.inl rfl⟩
  · rw [if_neg h]
    obtain ⟨d, ds, hds⟩ := List.exists_cons_of_ne_nil (natChars_ne_nil i.toNat)
    refine ⟨d, ds, hds, Or.inr ?_⟩
    apply natChars_all_dig
    rw [hds]
    exact List.mem_cons_self d ds

theorem numHead_ne {c : Char} (h : c = '-' ∨ isDig c = true) :
    c ≠ 'n' ∧ c ≠ 't' ∧ c ≠ 'f' ∧ c ≠ '"' ∧ c ≠ '[' ∧ c ≠ '\x7b' := by
  rcases h with h | h
  · subst h
    refine ⟨?_, ?_, ?_, ?_, ?_, ?_⟩ <;> decide
  · obtain ⟨k1, k2, k3, k4, k5, k6, _, _⟩ := isDig_ne_key h
    exact ⟨k1, k2, k3, k4, k5, k6⟩

theorem printVal_shape (v : PyVal) :
    ∃ c cs, printVal v = c :: cs ∧ c ≠ ']' ∧ c ≠ '\x7d' := by
  cases v with
  | null => exact ⟨'n', _, rfl, by decide, by decide⟩
  | bool b =>
    cases b with
    | false => exact ⟨'f', _, rfl, by decide, by decide⟩
    | true => exact ⟨'t', _, rfl, by decide, by decide⟩
  | num i =>
    obtain ⟨c, cs, hic, hc⟩ := intChars_head i
    refine ⟨c, cs, by rw [printVal, hic], ?_, ?_⟩ <;>
      (rcases hc with hc | hc
       · subst hc; decide
       · obtain ⟨_, _, _, _, _, _, k7, k8⟩ := isDig_ne_key hc
         first
         | exact k7
         | exact k8)
  | str s => exact ⟨'"', _, rfl, by decide, by decide⟩
  | arr es => exact ⟨'[', _, rfl, by decide, by decide⟩
  | obj fs => exact ⟨'\x7b', _, rfl, by decide, by decide⟩

theorem printElems_cons (v : PyVal) (tl : PyList) :
    ∃ ds, printElems (.cons v tl) = printVal v ++ ds := by
  cases tl with
  | nil => exact ⟨[], by simp [printElems]⟩
  | cons w tl2 => exact ⟨',' :: ' ' :: printElems (.cons w tl2), by simp [printElems]⟩

theorem printVal_null : printVal .null = 'n' :: 'u' :: 'l' :: 'l' :: [] := rfl

theorem printVal_true : printVal (.bool true) = 't' :: 'r' :: 'u' :: 'e' :: [] := rfl

theorem printVal_false : printVal (.bool false) = 'f' :: 'a' :: 'l' :: 's' :: 'e' :: [] := rfl

mutual

/-- Parsing the printed form of a value, followed by any non-digit-headed
rest, recovers the value exactly. -/
theorem printVal_rt (v : PyVal) (f : Nat) (rest : Str) (hsz : sizeV v < f)
    (hg : goodF rest) : parseVal f (printVal v ++ rest) = some (v, rest) := by
  cases f with
  | zero => omega
  | succ g =>
    cases v with
    | null => simp [printVal_null, parseVal, dropLit]
    | bool b => cases b <;> simp [printVal_true, printVal_false, parseVal, dropLit]
    | num i =>
      obtain ⟨c, cs, hic, hc⟩ := intChars_head i
      obtain ⟨k1, k2, k3, k4, k5, k6⟩ := numHead_ne hc
      rw [printVal, hic]
      simp only [List.cons_append]
      simp only [parseVal, if_neg k1, if_neg k2, if_neg k3, if_neg k4, if_neg k5, if_neg k6]
      rw [← List.cons_append, ← hic, parseNum_rt i rest hg]
      rfl
    | str s =>
      rw [printVal]
      simp only [List.cons_append, List.append_assoc, List.singleton_append]
      simp [parseVal, parseStrBody_rt]
    | arr es =>
      cases es with
      | nil =>
        rw [printVal]
        simp [printElems, parseVal]
      | cons v2 tl =>
        obtain ⟨ds, hds⟩ := printElems_cons v2 tl
        obtain ⟨c, cs, hpv, hne1, hne2⟩ := printVal_shape v2
        have hsz2 : sizeL (.cons v2 tl) < g := by
          simp [sizeV] at hsz
          omega
        have hrt := printElems_rt v2 tl g rest hsz2
        rw [hds, hpv] at hrt
        rw [printVal, hds, hpv]
        simp only [List.cons_append, List.append_assoc, List.singleton_append] at hrt ⊢
        simp [parseVal, hne1, hrt]
    | obj fs =>
      cases fs with
      | nil =>
        rw [printVal]
        simp [printFields, parseVal]
      | cons k v2 tl =>
        have hsz2 : sizeF (.cons k v2 tl) < g := by
          simp [sizeV] at hsz
          omega
        have hrt := printFields_rt k v2 tl g rest hsz2
        have hpf : ∃ ds, printFields (.cons k v2 tl) = '"' :: ds := by
          cases tl <;> exact ⟨_, rfl⟩
        obtain ⟨ds, hds⟩ := hpf
        rw [hds] at hrt
        rw [printVal, hds]
        simp only [List.cons_append, List.append_assoc, List.singleton_append] at hrt ⊢
        simp [parseVal, hrt]
termination_by f
decreasing_by
  all_goals omega

/-- Parsing the printed form of a nonempty element list followed by the
closing bracket recovers the list. -/
theorem printElems_rt (v : PyVal) (tl : PyList) (f : Nat) (rest : Str)
    (hsz : sizeL (.cons v tl) < f) :
    parseElems f (printElems (.cons v tl) ++ ']' :: rest) = some (.cons v tl, rest) := by
  cases f with
  | zero => omega
  | succ g =>
    cases tl with
    | nil =>
      have h1 := printVal_rt v g (']' :: rest) (by simp [sizeL] at hsz; omega)
        (goodF_cons (by decide))
      simp [printElems, parseElems, h1]
    | cons w tl2 =>
      have h1 := printVal_rt v g (',' :: ' ' :: (printElems (.cons w tl2) ++ ']' :: rest))
        (by simp [sizeL] at hsz ⊢; omega) (goodF_cons (by decide))
      have h2 := printElems_rt w tl2 g rest (by simp [sizeL] at hsz ⊢; omega)
      simp only [printElems, List.cons_append, List.append_assoc]
      simp [parseElems, h1, h2]
termination_by f
decreasing_by
  all_goals omega

/-- Parsing the printed form of a nonempty field list followed by the
closing brace recovers the list. -/
theorem printFields_rt (k : Str) (v : PyVal) (tl : PyFields) (f : Nat) (rest : Str)
    (hsz : sizeF (.cons k v tl) < f) :
    parseFields f (printFields (.cons k v tl) ++ '\x7d' :: rest) = some (.cons k v tl, rest) := by
  cases f with
  | zero => omega
  | succ g =>
    cases tl with
    | nil =>
      have h1 := printVal_rt v g ('\x7d' :: rest) (by simp [sizeF] at hsz; omega)
        (goodF_cons (by decide))
      simp only [printFields, List.cons_append, List.append_assoc]
      simp [parseFields, parseStrBody_rt, h1]
    | cons k2 v2 tl2 =>
      have h1 := printVal_rt v g
          (',' :: ' ' :: (printFields (.cons k2 v2 tl2) ++ '\x7d' :: rest))
        (by simp [sizeF] at hsz ⊢; omega) (goodF_cons (by decide))
      have h2 := printFields_rt k2 v2 tl2 g rest (by simp [sizeF] at hsz ⊢; omega)
      simp only [printFields, List.cons_append, List.append_assoc]
      simp [parseFields, parseStrBody_rt, h1, h2]
termination_by f
decreasing_by
  all_goals omega

end

mutual

/-- The parser fuel needed by a value is below twice its printed length. -/
theorem szBoundV : ∀ (v : PyVal), sizeV v < 2 * (printVal v).length
  | .null => by simp [sizeV, printVal_null]
  | .bool b => by cases b <;> simp [sizeV, printVal_true, printVal_false]
  | .num i => by
    obtain ⟨c, cs, hic, _⟩ := intChars_head i
    simp [sizeV, printVal, hic]
    omega
  | .str s => by
    simp [sizeV, printVal]
    omega
  | .arr es => by
    have h := szBoundL es
    simp only [sizeV, printVal]
    simp only [List.length_cons, List.length_append, List.length_singleton]
    omega
  | .obj fs => by
    have h := szBoundF fs
    simp only [sizeV, printVal]
    simp only [List.length_cons, List.length_append, List.length_singleton]
    omega

/-- Fuel bound for printed element lists. -/
theorem szBoundL : ∀ (es : PyList), sizeL es < 3 + 2 * (printElems es).length
  | .nil => by simp [sizeL, printElems]
  | .cons v .nil => by
    have h := szBoundV v
    simp only [sizeL, printElems]
    omega
  | .cons v (.cons w tl) => by
    have h1 := szBoundV v
    have h2 := szBoundL (.cons w tl)
    simp only [sizeL, printElems, List.length_append, List.length_cons]
    simp only [sizeL] at h2
    omega

/-- Fuel bound for printed field lists. -/
theorem szBoundF : ∀ (fs : PyFields), sizeF fs < 3 + 2 * (printFields fs).length
  | .nil => by simp [sizeF, printFields]
  | .cons k v .nil => by
    have h := szBoundV v
    simp only [sizeF, printFields, List.length_cons, List.length_append]
    omega
  | .cons k v (.cons k2 v2 tl) => by
    have h1 := szBoundV v
    have h2 := szBoundF (.cons k2 v2 tl)
    simp only [sizeF, printFields, List.length_append, List.length_cons]
    simp only [sizeF] at h2
    omega

end

/-- The loads model inverts the dumps model on complete printed values. -/
theorem parseTop_print (v : PyVal) : parseTop (printVal v) = some v := by
  unfold parseTop
  have h := printVal_rt v (2 * (printVal v).length + 1) []
    (by have := szBoundV v; omega) goodF_nil
  rw [List.append_nil] at h
  rw [h]

theorem jsonTag_pref (x : Str) : jsonTag.isPrefixOf (jsonTag ++ x) = true := by
  simp [List.isPrefixOf_iff_prefix]

theorem jsonTag_drop (x : Str) : (jsonTag ++ x).drop 5 = x := by
  have h : jsonTag.length = 5 := rfl
  rw [← h, List.drop_left]

theorem decode_encode_obj (fs : PyFields) :
    decodeDictValue (encodeDictValue (.obj fs)) = some (.obj fs) := by
  simp only [encodeDictValue, decodeDictValue, jsonTag_pref, if_true, jsonTag_drop,
    parseTop_print]

theorem decode_encode_arr (es : PyList) :
    decodeDictValue (encodeDictValue (.arr es)) = some (.arr es) := by
  simp only [encodeDictValue, decodeDictValue, jsonTag_pref, if_true, jsonTag_drop,
    parseTop_print]

theorem pdUnique_mem (x : Str) : ∀ (seen l : List Str), x ∈ pdUnique seen l ↔ (x ∈ l ∧ x ∉ seen) := by
  intro seen l
  induction l generalizing seen with
  | nil => simp [pdUnique]
  | cons y tl ih =>
    by_cases hy : y ∈ seen
    · rw [pdUnique, if_pos hy, ih]
      by_cases hxy : x = y
      · subst hxy
        simp [hy]
      · simp [hxy]
    · rw [pdUnique, if_neg hy]
      simp only [List.mem_cons, ih (y :: seen)]
      by_cases hxy : x = y
      · subst hxy
        simp [hy]
      · simp [hxy]

theorem pdUnique_nodup : ∀ (seen l : List Str), (pdUnique seen l).Nodup := by
  intro seen l
  induction l generalizing seen with
  | nil => exact List.nodup_nil
  | cons y tl ih =>
    by_cases hy : y ∈ seen
    · rw [pdUnique, if_pos hy]
      exact ih seen
    · rw [pdUnique, if_neg hy]
      refine List.nodup_cons.mpr ⟨?_, ih (y :: seen)⟩
      intro hmem
      exact ((pdUnique_mem y (y :: seen) tl).mp hmem).2 (List.mem_cons_self y seen)

theorem count_of_nodup (l : List Str) (h : l.Nodup) (s : Str) :
    l.count s = if s ∈ l then 1 else 0 := by
  induction l with
  | nil => simp
  | cons a tl ih =>
    rw [List.nodup_cons] at h
    by_cases hsa : s = a
    · subst hsa
      rw [List.count_cons_self, ih h.2, if_neg h.1, if_pos (List.mem_cons_self s tl)]
    · rw [List.count_cons_of_ne hsa, ih h.2]
      simp [List.mem_cons, hsa]

/-- C3 counterexample: in the run with groups s1, s2, s3 where the pooled
refresh of s2 raises, the fallback reruns both s2 (already dispatched and
failed) and s3 (already dispatched and succeeded), so the dispatched
group s2 is retried, contradicting the claim that the fallback processes
only remaining unscheduled groups. -/
theorem c3_fallback_retries_dispatched :
    hideAcornsQC [strOf "s1", strOf "s2", strOf "s3"] (fun s => s == strOf "s2")
      = [⟨strOf "s1", true, true⟩, ⟨strOf "s2", true, false⟩, ⟨strOf "s3", true, false⟩,
         ⟨strOf "s2", true, false⟩, ⟨strOf "s3", true, false⟩]
    ∧ ((hideAcornsQC [strOf "s1", strOf "s2", strOf "s3"] (fun s => s == strOf "s2")).filter
        (fun c => c.subject == strOf "s2")).length = 2 := by
  exact ⟨by decide, by decide⟩

/-- C3 amended: when any pooled refresh raises, the sequential fallback
reruns every group after the first, in order, with metadata suppressed;
dispatched groups, failed or not, are all retried. -/
theorem c3_fallback_processes_all_tail (s0 : Str) (rest : List Str) (fails : Str → Bool)
    (hfail : rest.any fails = true) :
    hideAcornsQC (s0 :: rest) fails
      = ⟨s0, true, true⟩ :: (rest.map (fun s => ⟨s, true, false⟩)
          ++ rest.map (fun s => ⟨s, true, false⟩)) := by
  unfold hideAcornsQC
  have hne : rest.isEmpty = false := by
    cases rest
    · simp at hfail
    · rfl
  simp [hne, hfail]

theorem c3_witness :
    ([strOf "s2"].any (fun s => s == strOf "s2") = true)
    ∧ hideAcornsQC [strOf "s1", strOf "s2"] (fun s => s == strOf "s2")
      = [⟨strOf "s1", true, true⟩, ⟨strOf "s2", true, false⟩, ⟨strOf "s2", true, false⟩] :=
  ⟨by decide, c3_fallback_processes_all_tail (strOf "s1") [strOf "s2"]
    (fun s => s == strOf "s2") (by decide)⟩

/-- C4 counterexample: the unrecognized TREE_SPECIES value Oak is neither
redshift nor memory after normalization, yet backend selection silently
produces the in-memory backend instead of failing. -/
theorem c4_unrecognized_falls_back :
    chooseAcorn (some (strOf "Oak")) = AcornBackend.memory
    ∧ tree_type (some (strOf "Oak")) ≠ strOf "redshift"
    ∧ tree_type (some (strOf "Oak")) ≠ strOf "memory" := by
  exact ⟨rfl, by decide, by decide⟩

/-- C4 amended: selection is total and never raises; the lowercased value
redshift selects the Redshift backend and every other value, recognized
or not, selects the in-memory backend. -/
theorem c4_backend_selection_amended (env : Option Str) :
    (chooseAcorn env = AcornBackend.redshift ↔ tree_type env = strOf "redshift")
    ∧ (chooseAcorn env = AcornBackend.redshift ∨ chooseAcorn env = AcornBackend.memory) := by
  unfold chooseAcorn
  by_cases h : tree_type env = strOf "redshift" <;> simp [h]

/-- C8 counterexample: in a run whose primary cache yields the three
group identifiers s1, s2, s3 and whose pooled refresh of s2 raises, the
group s3 is refreshed twice, contradicting exactly-once. -/
theorem c8_failed_run_double_refresh :
    subjectIdsOf [some (strOf "s1"), some (strOf "s2"), some (strOf "s3")]
      = [strOf "s1", strOf "s2", strOf "s3"]
    ∧ ((hideAcornsQC (subjectIdsOf [some (strOf "s1"), some (strOf "s2"), some (strOf "s3")])
        (fun s => s == strOf "s2")).filter (fun c => c.subject == strOf "s3")).length = 2 := by
  exact ⟨by decide, by decide⟩

/-- C8 amended: in runs whose parallel stage raises no exception, zero
group identifiers make the fan-out a no-op, otherwise the first group
runs with metadata enabled and the rest follow with metadata suppressed,
and every group identifier is refreshed exactly once. -/
theorem c8_fanout_exactly_once (col : List (Option Str)) (fails : Str → Bool)
    (hok : (subjectIdsOf col).tail.any fails = false) :
    (subjectIdsOf col = [] → hideAcornsQC (subjectIdsOf col) fails = [])
    ∧ (∀ s0 rest, subjectIdsOf col = s0 :: rest →
        hideAcornsQC (subjectIdsOf col) fails
          = ⟨s0, true, true⟩ :: rest.map (fun s => ⟨s, true, false⟩))
    ∧ (∀ s : Str, ((hideAcornsQC (subjectIdsOf col) fails).map QCCall.subject).count s
        = if s ∈ subjectIdsOf col then 1 else 0) := by
  have hnodup : (subjectIdsOf col).Nodup := pdUnique_nodup [] (col.filterMap id)
  have hmain : ∀ s0 rest, subjectIdsOf col = s0 :: rest →
      hideAcornsQC (subjectIdsOf col) fails
        = ⟨s0, true, true⟩ :: rest.map (fun s => (⟨s, true, false⟩ : QCCall)) := by
    intro s0 rest hL
    rw [hL] at hok ⊢
    cases rest with
    | nil => rfl
    | cons r rs =>
      rw [hideAcornsQC]
      simp only [List.tail_cons] at hok
      simp [hok]
  refine ⟨fun h => by rw [h]; rfl, hmain, ?_⟩
  intro s
  cases hL : subjectIdsOf col with
  | nil => simp [hL, hideAcornsQC]
  | cons s0 rest =>
    have h2 := hmain s0 rest hL
    rw [hL] at h2 hnodup
    rw [h2]
    have hmap : ((⟨s0, true, true⟩ :: rest.map (fun s => (⟨s, true, false⟩ : QCCall))).map
        QCCall.subject) = s0 :: rest := by
      simp only [List.map_cons, List.map_map]
      rw [show (QCCall.subject ∘ fun s => (⟨s, true, false⟩ : QCCall)) = id from rfl]
      simp
    rw [hmap, count_of_nodup _ hnodup]

theorem c8_witness :
    ((subjectIdsOf [some (strOf "a"), none, some (strOf "b")]).tail.any (fun _ => false) = false)
    ∧ ((subjectIdsOf [some (strOf "a"), none, some (strOf "b")] = [] →
        hideAcornsQC (subjectIdsOf [some (strOf "a"), none, some (strOf "b")]) (fun _ => false) = [])
      ∧ (∀ s0 rest, subjectIdsOf [some (strOf "a"), none, some (strOf "b")] = s0 :: rest →
          hideAcornsQC (subjectIdsOf [some (strOf "a"), none, some (strOf "b")]) (fun _ => false)
            = ⟨s0, true, true⟩ :: rest.map (fun s => ⟨s, true, false⟩))
      ∧ (∀ s : Str, ((hideAcornsQC (subjectIdsOf [some (strOf "a"), none, some (strOf "b")])
            (fun _ => false)).map QCCall.subject).count s
          = if s ∈ subjectIdsOf [some (strOf "a"), none, some (strOf "b")] then 1 else 0)) :=
  ⟨by decide, c8_fanout_exactly_once [some (strOf "a"), none, some (strOf "b")]
    (fun _ => false) (by decide)⟩

/-- C5 counterexample: two entity-cache functions return normally on a
cache miss without refresh instead of raising: qc only logs the error and
returns the empty frame, and the acorn_contents unique_subject_ids
variant silently falls back to fetching. -/
theorem c5_qc_returns_instead_of_raising :
    qcRun emptyDF false emptyDF none = .ok emptyDF
    ∧ usiContentsRun emptyDF false ⟨[strOf "subject_id"], [[.str (strOf "x")]]⟩
      = .ok ⟨[strOf "subject_id"], [[.str (strOf "x")]]⟩ :=
  ⟨rfl, rfl⟩

/-- C5 amended: the acorn_helpers caches unique_subject_ids and
asset_basics raise the cache-miss error, whose message names the remedy
force_update=True; the qc cache logs the error and returns a frame, and
the acorn_contents unique_subject_ids variant fetches instead of
raising. -/
theorem c5_cache_miss_partial (remote fetched : DF) (rdb : List AssetDoc)
    (ns : Option (List Str)) :
    usiHelperRun emptyDF false remote = .error cacheEmptyMsg
    ∧ assetBasicsRun emptyDF false rdb = .error cacheEmptyMsg
    ∧ (strOf "force_update=True") <:+: cacheEmptyMsg
    ∧ (∃ d, qcRun emptyDF false fetched ns = .ok d)
    ∧ usiContentsRun emptyDF false remote = .ok remote := by
  refine ⟨rfl, rfl, by decide, ?_, rfl⟩
  cases ns
  · exact ⟨emptyDF, rfl⟩
  · exact ⟨_, rfl⟩

/-- C6: the structured-value encoding round-trips dicts and lists
exactly, passes strings and null through unchanged, coerces the remaining
scalars to text, and decoding is the identity on strings without the
json: tag. -/
theorem c6_structured_value_encoding :
    (∀ fs : PyFields, decodeDictValue (encodeDictValue (.obj fs)) = some (.obj fs))
    ∧ (∀ es : PyList, decodeDictValue (encodeDictValue (.arr es)) = some (.arr es))
    ∧ (∀ s : Str, encodeDictValue (.str s) = .str s)
    ∧ encodeDictValue .null = .null
    ∧ (∀ b : Bool, encodeDictValue (.bool b) = .str (pyStr (.bool b)))
    ∧ (∀ i : Int, encodeDictValue (.num i) = .str (pyStr (.num i)))
    ∧ (∀ s : Str, jsonTag.isPrefixOf s = false → decodeDictValue (.str s) = some (.str s)) := by
  refine ⟨decode_encode_obj, decode_encode_arr, fun s => rfl, rfl, fun b => rfl,
    fun i => rfl, ?_⟩
  intro s h
  simp [decodeDictValue, h]

theorem c6_witness :
    decodeDictValue (encodeDictValue (.obj (.cons (strOf "a") (.num 1) .nil)))
      = some (.obj (.cons (strOf "a") (.num 1) .nil))
    ∧ jsonTag.isPrefixOf (strOf "plain") = false
    ∧ decodeDictValue (.str (strOf "plain")) = some (.str (strOf "plain")) :=
  ⟨c6_structured_value_encoding.1 _, by decide,
   c6_structured_value_encoding.2.2.2.2.2.2 (strOf "plain") (by decide)⟩

/-- C7 counterexample: the Redshift backend's scurry on a never-written
key propagates the client error rather than returning an empty frame. -/
theorem c7_redshift_scurry_raises :
    redshiftScurry [] (strOf "unwritten") = .error (strOf "relation does not exist") := rfl

/-- C7 amended: for a never-written key, the in-memory and S3 backends
return an empty frame without an error, while the Redshift backend's
scurry surfaces the client error, which its call sites absorb through
rds_get_handle_empty. -/
theorem c7_missing_key_reads (store : MemStore) (st : S3State) (wh : List (Str × DF)) (k : Str)
    (h1 : lookupA store k = none)
    (h2 : lookupA st.parquets (get_s3_cache_path (prefix_table_name k)) = none)
    (h3 : lookupA wh (prefix_table_name k) = none) :
    memScurrySingle store k = emptyDF
    ∧ s3ScurrySingle st k = emptyDF
    ∧ (∃ e, redshiftScurry wh k = .error e)
    ∧ rdsGetHandleEmpty wh k = emptyDF := by
  refine ⟨?_, ?_, ?_, ?_⟩
  · rw [memScurrySingle, h1]
    rfl
  · rw [s3ScurrySingle, h2]
  · rw [redshiftScurry, h3]
    exact ⟨_, rfl⟩
  · rw [rdsGetHandleEmpty, redshiftScurry, h3]

theorem c7_witness :
    memScurrySingle [] (strOf "never") = emptyDF
    ∧ s3ScurrySingle s3Init (strOf "never") = emptyDF
    ∧ (∃ e, redshiftScurry [] (strOf "never") = .error e)
    ∧ rdsGetHandleEmpty [] (strOf "never") = emptyDF :=
  c7_missing_key_reads [] s3Init [] (strOf "never") rfl rfl rfl

/-- C1: evaluating the embedded asset_basics refresh on the spec's own
scenario, cache A:w1, B:w2 and remote index A:w1, B:w3, C:w4, shows the
code requests full data for A, B and C and rebuilds even row A from the
remote fetch, while the documented incremental algorithm, applied to the
actually cached frame, marks only B and C stale. -/
theorem c1_asset_basics_full_refetch :
    assetBasicsRun
        ⟨abCols, [[.str (strOf "A"), .num 1, .str (strOf "pa0")],
                  [.str (strOf "B"), .num 2, .str (strOf "pb0")]]⟩
        true
        [⟨strOf "A", .num 1, .str (strOf "pa1")⟩, ⟨strOf "B", .num 3, .str (strOf "pb1")⟩,
         ⟨strOf "C", .num 4, .str (strOf "pc1")⟩]
      = .ok (⟨abCols, [[.str (strOf "A"), .num 1, .str (strOf "pa1")],
                       [.str (strOf "B"), .num 3, .str (strOf "pb1")],
                       [.str (strOf "C"), .num 4, .str (strOf "pc1")]]⟩,
             [strOf "A", strOf "B", strOf "C"])
    ∧ specStaleIds
        ⟨abCols, [[.str (strOf "A"), .num 1, .str (strOf "pa0")],
                  [.str (strOf "B"), .num 2, .str (strOf "pb0")]]⟩
        [(strOf "A", .num 1), (strOf "B", .num 3), (strOf "C", .num 4)]
      = [strOf "B", strOf "C"]
    ∧ ([strOf "A", strOf "B", strOf "C"] : List Str) ≠ [strOf "B", strOf "C"] := by
  refine ⟨?_, by decide, by decide⟩
  rfl

theorem lookupA_updA_self {α : Type} (l : List (Str × α)) (k : Str) (v : α) :
    lookupA (updA l k v) k = some v := by
  induction l with
  | nil => simp [updA, lookupA]
  | cons p tl ih =>
    obtain ⟨k2, w⟩ := p
    by_cases h : k2 = k
    · simp [updA, lookupA, h]
    · simp [updA, lookupA, h, ih]

theorem lookupA_updA_ne {α : Type} (l : List (Str × α)) (k k2 : Str) (v : α) (h : k2 ≠ k) :
    lookupA (updA l k v) k2 = lookupA l k2 := by
  induction l with
  | nil =>
    simp [updA, lookupA]
    intro he
    exact absurd he.symm h
  | cons p tl ih =>
    obtain ⟨k3, w⟩ := p
    by_cases h3 : k3 = k
    · subst h3
      simp only [updA, if_pos rfl, lookupA]
      rw [if_neg (fun he => h he.symm), if_neg (fun he => h he.symm)]
    · simp [updA, lookupA, h3, ih]

theorem lastOf_ne_nil {α : Type} : ∀ (b : α) (tl : List α), ∃ c, lastOf (b :: tl) = some c := by
  intro b tl
  induction tl generalizing b with
  | nil => exact ⟨b, rfl⟩
  | cons d tl2 ih => exact ih d

theorem lastOf_nil_iff {α : Type} : ∀ (l : List α), lastOf l = none ↔ l = [] := by
  intro l
  cases l with
  | nil => simp [lastOf]
  | cons b tl =>
    obtain ⟨c, hc⟩ := lastOf_ne_nil b tl
    simp [hc]

theorem lastOf_cons_of_some {α : Type} (a c : α) (l : List α) (h : lastOf l = some c) :
    lastOf (a :: l) = some c := by
  cases l with
  | nil => simp [lastOf] at h
  | cons b tl => exact h

theorem c9_aux (ops : List (Str × DF × Bool)) : ∀ (st : S3State) (p : Str),
    lookupA (ops.foldl (fun s op => s3Hide s op.1 op.2.1 op.2.2) st).jsons p
      = match lastOf (metaWritesTo ops p) with
        | some c => some c
        | none => lookupA st.jsons p := by
  induction ops with
  | nil =>
    intro st p
    simp [metaWritesTo, lastOf]
  | cons op tl ih =>
    intro st p
    rw [List.foldl_cons, ih (s3Hide st op.1 op.2.1 op.2.2) p]
    by_cases hw : op.2.2 = true
    · by_cases hp : get_s3_cache_path (metaJsonName op.1) = p
      · have hmw : metaWritesTo (op :: tl) p = op.2.1.cols :: metaWritesTo tl p := by
          simp [metaWritesTo, hw, hp]
        have hj : (s3Hide st op.1 op.2.1 op.2.2).jsons
            = updA st.jsons p op.2.1.cols := by
          simp [s3Hide, hw, hp]
        rw [hmw, hj]
        cases hlast : lastOf (metaWritesTo tl p) with
        | none =>
          rw [(lastOf_nil_iff (metaWritesTo tl p)).mp hlast]
          simp [lastOf, lookupA_updA_self]
        | some c =>
          rw [lastOf_cons_of_some _ _ _ hlast]
      · have hmw : metaWritesTo (op :: tl) p = metaWritesTo tl p := by
          have : (get_s3_cache_path (metaJsonName op.1) == p) = false := by
            simp [hp]
          simp [metaWritesTo, this]
        have hj : (s3Hide st op.1 op.2.1 op.2.2).jsons
            = updA st.jsons (get_s3_cache_path (metaJsonName op.1)) op.2.1.cols := by
          simp [s3Hide, hw]
        rw [hmw, hj, lookupA_updA_ne _ _ _ _ (fun he => hp he.symm)]
    · rw [Bool.not_eq_true] at hw
      have hmw : metaWritesTo (op :: tl) p = metaWritesTo tl p := by
        simp [metaWritesTo, hw]
      have hj : (s3Hide st op.1 op.2.1 op.2.2).jsons = st.jsons := by
        simp [s3Hide, hw]
      rw [hmw, hj]

/-- C9 amended: after any sequence of hide operations from an empty
bucket, the sidecar artifact at a key, when present, lists exactly the
columns of the last metadata-enabled write that targeted that artifact
(qc/* keys share one artifact); metadata-suppressed writes leave it
untouched. -/
theorem c9_sidecar_is_last_meta_write (ops : List (Str × DF × Bool)) (p : Str) :
    lookupA (runHides ops).jsons p = lastOf (metaWritesTo ops p) := by
  rw [runHides, c9_aux ops s3Init p]
  cases lastOf (metaWritesTo ops p) <;> rfl

/-- C9 counterexample: write the key t with one column and metadata
enabled, then overwrite it with two columns and metadata suppressed: the
stored dataset now has columns a, b while the sidecar still lists only a,
a stale schema for the most recently written dataset. -/
theorem c9_sidecar_stale_after_suppressed_write :
    lookupA (s3Hide (s3Hide s3Init (strOf "t") ⟨[strOf "a"], [[.num 1]]⟩ true)
        (strOf "t") ⟨[strOf "a", strOf "b"], [[.num 1, .num 2]]⟩ false).parquets
      (get_s3_cache_path (prefix_table_name (strOf "t")))
      = some ⟨[strOf "a", strOf "b"], [[.num 1, .num 2]]⟩
    ∧ lookupA (s3Hide (s3Hide s3Init (strOf "t") ⟨[strOf "a"], [[.num 1]]⟩ true)
        (strOf "t") ⟨[strOf "a", strOf "b"], [[.num 1, .num 2]]⟩ false).jsons
      (get_s3_cache_path (metaJsonName (strOf "t"))) = some [strOf "a"]
    ∧ ([strOf "a"] : List Str) ≠ [strOf "a", strOf "b"] := by
  refine ⟨rfl, rfl, by decide⟩

theorem lookupR_append_ne (h1 : List (Nat × DF)) (k : Nat) (d : DF) (r : Nat) (h : r ≠ k) :
    lookupR (h1 ++ [(k, d)]) r = lookupR h1 r := by
  induction h1 with
  | nil =>
    simp only [List.nil_append, lookupR]
    rw [if_neg (fun he => h he.symm)]
  | cons p tl ih =>
    obtain ⟨k2, w⟩ := p
    by_cases h2 : k2 = r
    · simp [lookupR, h2]
    · simp [lookupR, h2, ih]

theorem updR_append_fresh (h1 : List (Nat × DF)) (k : Nat) (d0 d : DF)
    (h : ∀ p ∈ h1, p.1 ≠ k) :
    updR (h1 ++ [(k, d0)]) k d = h1 ++ [(k, d)] := by
  induction h1 with
  | nil => simp [updR]
  | cons p tl ih =>
    obtain ⟨k2, w⟩ := p
    have hk2 : k2 ≠ k := h (k2, w) (List.mem_cons_self _ _)
    simp only [List.cons_append, updR, if_neg hk2, List.append_eq]
    rw [ih (fun q hq => h q (List.mem_cons_of_mem _ hq))]

theorem lookupA_mem {α : Type} (l : List (Str × α)) (key : Str) (w : α)
    (h : lookupA l key = some w) : (key, w) ∈ l := by
  induction l with
  | nil => exact absurd h (by simp [lookupA])
  | cons p tl ih =>
    obtain ⟨k2, w2⟩ := p
    by_cases h2 : k2 = key
    · subst h2
      rw [lookupA, if_pos rfl] at h
      cases h
      exact List.mem_cons_self _ _
    · rw [lookupA, if_neg h2] at h
      exact List.mem_cons_of_mem _ (ih h)

theorem memScurryH_frame (names : List Str) : ∀ (st : MemHeapState), heapWF st →
    (memScurryMultipleH st names).2.store = st.store
    ∧ st.next ≤ (memScurryMultipleH st names).2.next
    ∧ (∀ r, r < st.next →
        lookupR (memScurryMultipleH st names).2.heap r = lookupR st.heap r) := by
  induction names with
  | nil => exact fun st h => ⟨rfl, Nat.le_refl _, fun r hr => rfl⟩
  | cons n rest ih =>
    intro st h
    rw [memScurryMultipleH]
    by_cases hd : dfEmpty (match lookupA st.store n with
      | some r => (lookupR st.heap r).getD emptyDF
      | none => emptyDF) = true
    · simp only [hd, if_true]
      exact ih st h
    · simp only [hd, if_false, Bool.false_eq_true]
      set d := (match lookupA st.store n with
        | some r => (lookupR st.heap r).getD emptyDF
        | none => emptyDF) with hdd
      have hfresh : ∀ p ∈ st.heap, p.1 ≠ st.next := fun p hp => Nat.ne_of_lt (h p hp)
      have hheap3 : updR (st.heap ++ [(st.next, d)]) st.next
          (setCol d assetNameCol (.str n)) = st.heap ++ [(st.next, setCol d assetNameCol (.str n))] :=
        updR_append_fresh st.heap st.next d _ hfresh
      rw [hheap3]
      have hwf3 : heapWF ⟨st.store, st.heap ++ [(st.next, setCol d assetNameCol (.str n))],
          st.next + 1⟩ := by
        intro p hp
        rcases List.mem_append.mp hp with hp1 | hp2
        · exact Nat.lt_succ_of_lt (h p hp1)
        · simp only [List.mem_singleton] at hp2
          rw [hp2]
          exact Nat.lt_succ_self _
      obtain ⟨h1, h2, h3⟩ := ih _ hwf3
      refine ⟨h1, Nat.le_trans (Nat.le_succ _) h2, ?_⟩
      intro r hr
      rw [h3 r (Nat.lt_succ_of_lt hr)]
      exact lookupR_append_ne st.heap st.next _ r (Nat.ne_of_lt hr)

/-- C10: a multi-key read of the in-memory store leaves the store mapping
and every previously allocated frame object untouched: the asset_name
tag is assigned only on freshly allocated copies. -/
theorem c10_multi_read_preserves_cached_frames (st : MemHeapState) (names : List Str)
    (hwf : heapWF st) (hs : ∀ p ∈ st.store, p.2 < st.next) :
    (memScurryMultipleH st names).2.store = st.store
    ∧ (∀ n rf, lookupA st.store n = some rf →
        lookupR (memScurryMultipleH st names).2.heap rf = lookupR st.heap rf) := by
  obtain ⟨h1, _, h3⟩ := memScurryH_frame names st hwf
  exact ⟨h1, fun n rf hrf => h3 rf (hs (n, rf) (lookupA_mem _ _ _ hrf))⟩

theorem c10_witness :
    (memScurryMultipleH ⟨[(strOf "m1", 0)], [(0, ⟨[strOf "x"], [[.num 7]]⟩)], 1⟩
        [strOf "m1", strOf "m2"]).2.store = [(strOf "m1", 0)]
    ∧ (∀ n rf, lookupA ([(strOf "m1", 0)] : List (Str × Ref)) n = some rf →
        lookupR (memScurryMultipleH ⟨[(strOf "m1", 0)], [(0, ⟨[strOf "x"], [[.num 7]]⟩)], 1⟩
          [strOf "m1", strOf "m2"]).2.heap rf
          = lookupR [(0, ⟨[strOf "x"], [[.num 7]]⟩)] rf) :=
  c10_multi_read_preserves_cached_frames
    ⟨[(strOf "m1", 0)], [(0, ⟨[strOf "x"], [[.num 7]]⟩)], 1⟩
    [strOf "m1", strOf "m2"]
    (by intro p hp
        simp only [List.mem_singleton] at hp
        rw [hp]
        decide)
    (by intro p hp
        simp only [List.mem_singleton] at hp
        rw [hp]
        decide)

theorem getD_set_self : ∀ (l : List PyVal) (i : Nat) (v : PyVal), i < l.length →
    (l.set i v).getD i .null = v := by
  intro l
  induction l with
  | nil => intro i v h; simp at h
  | cons a tl ih =>
    intro i v h
    cases i with
    | zero => rfl
    | succ j =>
      simp only [List.set_cons_succ, List.getD_cons_succ]
      exact ih j v (by simp at h; omega)

theorem getD_append_len : ∀ (l : List PyVal) (v : PyVal),
    (l ++ [v]).getD l.length .null = v := by
  intro l v
  induction l with
  | nil => rfl
  | cons a tl ih =>
    simp only [List.cons_append, List.length_cons, List.getD_cons_succ]
    exact ih

theorem getD_map_lt : ∀ (l : List Str) (f : Str → PyVal) (j : Nat), j < l.length →
    (l.map f).getD j .null = f (l.getD j []) := by
  intro l
  induction l with
  | nil => intro f j h; simp at h
  | cons a tl ih =>
    intro f j h
    cases j with
    | zero => rfl
    | succ i =>
      simp only [List.map_cons, List.getD_cons_succ]
      exact ih f i (by simp at h; omega)

theorem colIdx_lt : ∀ (cols : List Str) (c : Str) (i : Nat), colIdx cols c = some i →
    i < cols.length := by
  intro cols
  induction cols with
  | nil => intro c i h; simp [colIdx] at h
  | cons k tl ih =>
    intro c i h
    by_cases hk : k = c
    · rw [colIdx, if_pos hk] at h
      cases h
      simp
    · rw [colIdx, if_neg hk] at h
      cases hm : colIdx tl c with
      | none => rw [hm] at h; simp at h
      | some j =>
        rw [hm] at h
        simp at h
        have := ih c j hm
        simp
        omega

theorem colIdx_getD : ∀ (cols : List Str) (c : Str) (i : Nat), colIdx cols c = some i →
    cols.getD i [] = c := by
  intro cols
  induction cols with
  | nil => intro c i h; simp [colIdx] at h
  | cons k tl ih =>
    intro c i h
    by_cases hk : k = c
    · rw [colIdx, if_pos hk] at h
      cases h
      exact hk
    · rw [colIdx, if_neg hk] at h
      cases hm : colIdx tl c with
      | none => rw [hm] at h; simp at h
      | some j =>
        rw [hm] at h
        simp at h
        rw [← h]
        simpa using ih c j hm

theorem colIdx_none_iff : ∀ (cols : List Str) (c : Str), colIdx cols c = none ↔ c ∉ cols := by
  intro cols
  induction cols with
  | nil => intro c; simp [colIdx]
  | cons k tl ih =>
    intro c
    by_cases hk : k = c
    · subst hk
      simp [colIdx]
    · rw [colIdx, if_neg hk]
      cases hm : colIdx tl c with
      | none =>
        simp only [Option.map_none, true_iff, List.mem_cons]
        have := (ih c).mp hm
        simp [hk, this]
        intro he
        exact absurd he.symm hk
      | some j =>
        simp only [Option.map_some, List.mem_cons]
        constructor
        · intro h; simp at h
        · intro h
          have : c ∈ tl := by
            by_contra hc
            rw [(ih c).mpr hc] at hm
            simp at hm
          exact absurd (Or.inr this) h

theorem colIdx_append_self : ∀ (cols : List Str) (c : Str), c ∉ cols →
    colIdx (cols ++ [c]) c = some cols.length := by
  intro cols
  induction cols with
  | nil => intro c h; simp [colIdx]
  | cons k tl ih =>
    intro c h
    have hk : k ≠ c := fun he => h (he ▸ List.mem_cons_self k tl)
    have hc : c ∉ tl := fun hm => h (List.mem_cons_of_mem k hm)
    simp only [List.cons_append, colIdx, if_neg hk, List.append_eq]
    rw [ih c hc]
    simp

theorem mem_setColCols : ∀ (cols : List Str) (c : Str), c ∈ setColCols cols c := by
  intro cols c
  rw [setColCols]
  cases hm : colIdx cols c with
  | none => simp
  | some i =>
    by_contra hc
    rw [(colIdx_none_iff cols c).mpr hc] at hm
    simp at hm

theorem getCell_setColRow : ∀ (cols : List Str) (c : Str) (v : PyVal) (row : List PyVal),
    row.length = cols.length →
    getCell (setColCols cols c) (setColRow cols c v row) c = v := by
  intro cols c v row hlen
  rw [setColCols, setColRow, getCell]
  cases hm : colIdx cols c with
  | none =>
    rw [colIdx_append_self cols c ((colIdx_none_iff cols c).mp hm), ← hlen]
    exact getD_append_len row v
  | some i =>
    rw [hm]
    exact getD_set_self row i v (hlen ▸ colIdx_lt cols c i hm)

theorem getCell_eq_of_colIdx (cols : List Str) (row : List PyVal) (c : Str) (i : Nat)
    (h : colIdx cols c = some i) : getCell cols row c = row.getD i .null := by
  rw [getCell, h]

theorem getCell_alignRow : ∀ (allCols cols : List Str) (row : List PyVal) (c : Str),
    c ∈ allCols →
    getCell allCols (alignRow allCols cols row) c = getCell cols row c := by
  intro allCols cols row c hc
  cases hm : colIdx allCols c with
  | none => exact absurd ((colIdx_none_iff allCols c).mp hm) (by simpa using hc)
  | some j =>
    rw [getCell_eq_of_colIdx allCols _ c j hm, alignRow,
      getD_map_lt allCols _ j (colIdx_lt allCols c j hm), colIdx_getD allCols c j hm]
    rfl

theorem flatMap_filterMap {α β γ : Type} (f : α → Option β) (g : β → List γ) :
    ∀ (l : List α), (l.filterMap f).flatMap g
      = l.flatMap (fun a => ((f a).map g).getD []) := by
  intro l
  induction l with
  | nil => rfl
  | cons a tl ih =>
    cases hf : f a with
    | none => simp [List.filterMap_cons, hf, ih]
    | some b => simp [List.filterMap_cons, hf, ih]

theorem flatMap_nil_of {α γ : Type} (l : List α) (g : α → List γ)
    (h : ∀ a ∈ l, g a = []) : l.flatMap g = [] := by
  induction l with
  | nil => rfl
  | cons a tl ih =>
    rw [List.flatMap_cons, h a (List.mem_cons_self a tl),
      ih (fun x hx => h x (List.mem_cons_of_mem a hx))]
    rfl

theorem lookupAll_none (st : S3State) : ∀ (names : List Str) (n : Str), n ∈ names →
    lookupA st.parquets (get_s3_cache_path (prefix_table_name n)) = none →
    lookupAll st names = none := by
  intro names
  induction names with
  | nil => intro n h; simp at h
  | cons m tl ih =>
    intro n hn hmiss
    rcases List.mem_cons.mp hn with he | ht
    · subst he
      rw [lookupAll, hmiss]
    · rw [lookupAll, ih n ht hmiss]
      cases lookupA st.parquets (get_s3_cache_path (prefix_table_name m)) <;> rfl

theorem memScurryMultiple_def2 (store : MemStore) (names : List Str) :
    memScurryMultiple store names =
      if (names.filterMap (memTagged store)).isEmpty then emptyDF
      else concatDFs (names.filterMap (memTagged store)) := rfl

theorem taggedRowsFor_def2 (store : MemStore) (names : List Str) (n : Str) :
    taggedRowsFor store names n =
      ((memTagged store n).map
        (fun t => t.rows.map (alignRow (memScurryMultiple store names).cols t.cols))).getD [] := by
  rw [taggedRowsFor, memTagged]
  by_cases hd : dfEmpty ((lookupA store n).getD emptyDF) = true
  · simp [hd]
  · simp [hd, setCol]

theorem memScurry_rows_eq (store : MemStore) (names : List Str) :
    (memScurryMultiple store names).rows = names.flatMap (taggedRowsFor store names) := by
  by_cases hE : (names.filterMap (memTagged store)) = []
  · rw [memScurryMultiple_def2, hE]
    simp only [List.isEmpty_nil, if_true]
    symm
    apply flatMap_nil_of
    intro n hn
    rw [taggedRowsFor_def2, (List.filterMap_eq_nil_iff.mp hE) n hn]
    rfl
  · have hne : ¬((names.filterMap (memTagged store)).isEmpty = true) := by
      simp [List.isEmpty_iff, hE]
    have hM : memScurryMultiple store names
        = concatDFs (names.filterMap (memTagged store)) := by
      rw [memScurryMultiple_def2, if_neg hne]
    rw [hM, concatDFs]
    simp only []
    rw [flatMap_filterMap]
    have hfun : (fun n => (((memTagged store n).map (fun t => t.rows.map (alignRow
            (pdUnique [] ((names.filterMap (memTagged store)).flatMap (fun d => d.cols)))
            t.cols))).getD []))
        = taggedRowsFor store names := by
      funext n
      rw [taggedRowsFor_def2]
      have hcols : (memScurryMultiple store names).cols
          = pdUnique [] ((names.filterMap (memTagged store)).flatMap (fun d => d.cols)) := by
        rw [hM, concatDFs]
      rw [hcols]
    exact congrArg (fun f => names.flatMap f) hfun

theorem memScurry_tagging (store : MemStore) (names : List Str)
    (hwf : ∀ p ∈ store, dfWF p.2) :
    ∀ n ∈ names, ∀ r ∈ taggedRowsFor store names n,
      getCell (memScurryMultiple store names).cols r assetNameCol = .str n := by
  intro n hn r hr
  rw [taggedRowsFor_def2] at hr
  cases hT : memTagged store n with
  | none =>
    rw [hT] at hr
    simp at hr
  | some t =>
    rw [hT] at hr
    simp only [Option.map_some', Option.getD_some] at hr
    obtain ⟨row2, hrow2, hr2⟩ := List.mem_map.mp hr
    rw [memTagged] at hT
    by_cases hd : dfEmpty ((lookupA store n).getD emptyDF) = true
    · simp [hd] at hT
    · simp only [hd, Bool.false_eq_true, if_false, Option.some_inj] at hT
      have hdwf : dfWF ((lookupA store n).getD emptyDF) := by
        cases hlk : lookupA store n with
        | none =>
          intro r0 hr0
          simp [emptyDF] at hr0
        | some d0 =>
          simpa [hlk] using hwf (n, d0) (lookupA_mem store n d0 hlk)
      have htmem : t ∈ names.filterMap (memTagged store) := by
        apply List.mem_filterMap.mpr
        refine ⟨n, hn, ?_⟩
        rw [memTagged]
        simp [hd, hT]
      have hne : ¬((names.filterMap (memTagged store)).isEmpty = true) := by
        cases hq : names.filterMap (memTagged store)
        · rw [hq] at htmem
          simp at htmem
        · simp [hq]
      have hM : memScurryMultiple store names
          = concatDFs (names.filterMap (memTagged store)) := by
        rw [memScurryMultiple_def2, if_neg hne]
      have haN : assetNameCol ∈ (memScurryMultiple store names).cols := by
        rw [hM, concatDFs]
        apply (pdUnique_mem assetNameCol [] _).mpr
        refine ⟨?_, by simp⟩
        apply List.mem_flatMap.mpr
        refine ⟨t, htmem, ?_⟩
        rw [← hT]
        exact mem_setColCols _ _
      rw [← hr2, getCell_alignRow _ _ _ _ haN, ← hT]
      have hrows : (setCol ((lookupA store n).getD emptyDF) assetNameCol (.str n)).rows
          = ((lookupA store n).getD emptyDF).rows.map
            (setColRow ((lookupA store n).getD emptyDF).cols assetNameCol (.str n)) := rfl
      rw [← hT] at hrow2
      rw [hrows] at hrow2
      obtain ⟨row, hrowmem, hrow⟩ := List.mem_map.mp hrow2
      rw [← hrow]
      exact getCell_setColRow _ _ _ _ (hdwf row hrowmem)

/-- C2 counterexample: in the S3 store, key m1 holds a non-empty frame
yet a multi-key read of m1 together with the missing key ghost returns
the empty frame: keys with no data are not skipped, they fail the whole
union, so the non-empty per-key result of m1 is not in the output. -/
theorem c2_s3_missing_key_empties_merge :
    dfEmpty (s3ScurrySingle (s3Hide s3Init (strOf "m1") ⟨[strOf "x"], [[.num 7]]⟩ true)
      (strOf "m1")) = false
    ∧ s3ScurryMultiple (s3Hide s3Init (strOf "m1") ⟨[strOf "x"], [[.num 7]]⟩ true)
      [strOf "m1", strOf "ghost"] = emptyDF := by
  exact ⟨rfl, rfl⟩

/-- C2 amended: for the in-memory store, the multi-key read concatenates,
in request order with original row order, exactly the tagged rows of the
keys holding non-empty frames, every merged row reads its originating key
in the asset_name column, and when no key has data the result is the
empty frame; for the S3 store, a single missing key makes the whole
multi-key read return the empty frame instead of skipping that key. -/
theorem c2_multi_key_merge (store : MemStore) (names : List Str)
    (hwf : ∀ p ∈ store, dfWF p.2) :
    ((memScurryMultiple store names).rows = names.flatMap (taggedRowsFor store names))
    ∧ (∀ n ∈ names, ∀ r ∈ taggedRowsFor store names n,
        getCell (memScurryMultiple store names).cols r assetNameCol = .str n)
    ∧ ((∀ n ∈ names, dfEmpty ((lookupA store n).getD emptyDF) = true) →
        memScurryMultiple store names = emptyDF)
    ∧ (∀ (st : S3State) (n : Str), n ∈ names →
        lookupA st.parquets (get_s3_cache_path (prefix_table_name n)) = none →
        s3ScurryMultiple st names = emptyDF) := by
  refine ⟨memScurry_rows_eq store names, memScurry_tagging store names hwf, ?_, ?_⟩
  · intro hall
    rw [memScurryMultiple_def2]
    have hnil : names.filterMap (memTagged store) = [] := by
      apply List.filterMap_eq_nil_iff.mpr
      intro n hn
      rw [memTagged]
      simp [hall n hn]
    rw [hnil]
    rfl
  · intro st n hn hmiss
    rw [s3ScurryMultiple, lookupAll_none st names n hn hmiss]

theorem c2_witness :
    (∀ p ∈ ([(strOf "m1", (⟨[strOf "x"], [[.num 7]]⟩ : DF))] : MemStore), dfWF p.2)
    ∧ (((memScurryMultiple [(strOf "m1", ⟨[strOf "x"], [[.num 7]]⟩)]
          [strOf "m1", strOf "ghost"]).rows
        = [strOf "m1", strOf "ghost"].flatMap
            (taggedRowsFor [(strOf "m1", ⟨[strOf "x"], [[.num 7]]⟩)]
              [strOf "m1", strOf "ghost"]))
      ∧ (∀ n ∈ [strOf "m1", strOf "ghost"],
          ∀ r ∈ taggedRowsFor [(strOf "m1", ⟨[strOf "x"], [[.num 7]]⟩)]
              [strOf "m1", strOf "ghost"] n,
            getCell (memScurryMultiple [(strOf "m1", ⟨[strOf "x"], [[.num 7]]⟩)]
              [strOf "m1", strOf "ghost"]).cols r assetNameCol = .str n)
      ∧ ((∀ n ∈ [strOf "m1", strOf "ghost"],
            dfEmpty ((lookupA [(strOf "m1", ⟨[strOf "x"], [[.num 7]]⟩)] n).getD emptyDF) = true) →
          memScurryMultiple [(strOf "m1", ⟨[strOf "x"], [[.num 7]]⟩)]
            [strOf "m1", strOf "ghost"] = emptyDF)
      ∧ (∀ (st : S3State) (n : Str), n ∈ [strOf "m1", strOf "ghost"] →
          lookupA st.parquets (get_s3_cache_path (prefix_table_name n)) = none →
          s3ScurryMultiple st [strOf "m1", strOf "ghost"] = emptyDF)) :=
  ⟨by
    intro p hp
    simp only [List.mem_singleton] at hp
    rw [hp]
    intro r hr
    simp only [List.mem_singleton] at hr
    rw [hr]
    rfl,
   c2_multi_key_merge [(strOf "m1", ⟨[strOf "x"], [[.num 7]]⟩)] [strOf "m1", strOf "ghost"]
    (by
      intro p hp
      simp only [List.mem_singleton] at hp
      rw [hp]
      intro r hr
      simp only [List.mem_singleton] at hr
      rw [hr]
      rfl)⟩
